import Mathlib

/-!
Verification of the symbolic expression engine in `symbolize/core`
(`node.py`, `ast_utils.py`, `lambda_utils.py`).

The Python engine manipulates Python `ast` expression objects.  Each AST
object has a mutable out-of-band `_value` attribute (absent by default,
read with `getattr(..., '_value', None)`).  We model an AST object as an
`Exp` carrying a `slot : Nat` standing for the object's identity, and a
store `St` mapping slots to the current `_value` contents.  Fresh AST
objects receive fresh slots; `toast`'s synthetic-name counter is modelled
by `St.nextName`.  Host evaluation (`compile`/`eval`) is modelled by a
fuel-indexed evaluator `pureEval` over the expression fragment the engine
builds (names, int constants, calls, the binary operators the engine
emits, lambdas); the ambient globals visible to `eval` are a parameter
`G`.  Python exceptions are modelled with `Except Err`.
-/

namespace Symbolize

/-- Binary operator tags appearing in trees built or parsed by the engine. -/
inductive BOp
  | add
  | mult
  | band

/-- Python AST expression nodes, as used by the engine.  `slot` is the
object identity of the AST node, indexing its mutable `_value` attribute
in the store. -/
inductive Exp
  | name (slot : Nat) (id : String)
  | const (slot : Nat) (n : Int)
  | call (slot : Nat) (func : Exp) (args : List Exp)
  | binop (slot : Nat) (op : BOp) (left : Exp) (right : Exp)
  | lam (slot : Nat) (params : List String) (body : Exp)

/-- Host values the engine handles: integers, compiled lambda closures
(a compiled `ast.Lambda` captures no locals, so it is just parameters and
body; its global lookups go through the ambient `G`), `Node` wrappers
(symbolic values), floats (arising only from `/=`; modelled as the exact
pair numerator/denominator, since no claim inspects float arithmetic) and
opaque host objects (identified by a tag; their operators are not
modelled, as no engine code path applies operators to them). -/
inductive Value
  | vint (n : Int)
  | vclos (params : List String) (body : Exp)
  | vnode (e : Exp)
  | vfloat (num den : Int)
  | vobj (tag : Nat)

/-- Host exceptions relevant to the engine: `NameError`, `TypeError`, and
an out-of-fuel marker for the fuel-indexed evaluator. -/
inductive Err
  | nameError (id : String)
  | typeError
  | fuelOut
deriving DecidableEq

/-- The mutable process state: the `_value` attribute of every AST object
(indexed by slot), the next fresh slot, and `toast`'s synthetic-name
counter `_counter`. -/
structure St where
  store : Nat → Option Value
  nextSlot : Nat
  nextName : Nat

/-- Pointwise update of a store function. -/
def updFun (f : Nat → Option Value) (k : Nat) (v : Option Value) : Nat → Option Value :=
  fun i => if i = k then v else f i

/-- Allocate a fresh AST object (no `_value` yet). -/
def St.alloc (st : St) : St := ⟨st.store, st.nextSlot + 1, st.nextName⟩

/-- Write the `_value` attribute of the object at slot `k`. -/
def St.write (st : St) (k : Nat) (v : Value) : St :=
  ⟨updFun st.store k (some v), st.nextSlot, st.nextName⟩

/-- Environments (Python dicts used as `locals`/`globals`). -/
def Env : Type := String → Option Value

/-- The empty environment. -/
def emptyEnv : Env := fun _ => none

/-- Dict assignment `env[x] = v`. -/
def updEnv (env : Env) (x : String) (v : Value) : Env :=
  fun y => if y = x then some v else env y

/-- Lookup in `a` first, then `b` (locals before cells). -/
def overlay (a b : Env) : Env :=
  fun x => match a x with
  | some v => some v
  | none => b x

/-- Environment from an association list, later entries overwriting. -/
def envOfList (l : List (String × Value)) : Env :=
  l.foldl (fun env p => updEnv env p.1 p.2) emptyEnv

/-- Positional parameter binding for a call. -/
def bindParams (ps : List String) (vs : List Value) : Env :=
  (ps.zip vs).foldl (fun env p => updEnv env p.1 p.2) emptyEnv

mutual

/-- Size measure on expressions (used only for termination). -/
def expSize : Exp → Nat
  | .name _ _ => 1
  | .const _ _ => 1
  | .call _ f as => 1 + expSize f + expSizeList as
  | .binop _ _ l r => 1 + expSize l + expSize r
  | .lam _ _ b => 1 + expSize b

/-- Total size of a list of expressions. -/
def expSizeList : List Exp → Nat
  | [] => 0
  | e :: es => expSize e + expSizeList es

end

/-- `Node.children` / `ast.iter_child_nodes` restricted to expression
children, in field order (`Call`: func then args; `BinOp`: left, right;
`Lambda`: body — `arguments` holds no expressions; leaves: none). -/
def children : Exp → List Exp
  | .name _ _ => []
  | .const _ _ => []
  | .call _ f as => f :: as
  | .binop _ _ l r => [l, r]
  | .lam _ _ b => [b]

/-- The slot (object identity) of the root AST node: `self.ast`. -/
def rootSlot : Exp → Nat
  | .name s _ => s
  | .const s _ => s
  | .call s _ _ => s
  | .binop s _ _ _ => s
  | .lam s _ _ => s

/-- Decimal digit to character. -/
def digitChar : Nat → Char
  | 0 => '0'
  | 1 => '1'
  | 2 => '2'
  | 3 => '3'
  | 4 => '4'
  | 5 => '5'
  | 6 => '6'
  | 7 => '7'
  | 8 => '8'
  | 9 => '9'
  | _ => '*'

/-- Little-endian decimal digits of `n` (fuel-driven so it reduces in the
kernel). -/
def digitsAux : Nat → Nat → List Char
  | 0, _ => []
  | _, 0 => []
  | fuel + 1, n + 1 => digitChar ((n + 1) % 10) :: digitsAux fuel ((n + 1) / 10)

/-- Decimal rendering of a natural number, as Python's `str`/f-string. -/
def digitsStr (n : Nat) : String :=
  if n = 0 then "0" else ((digitsAux (n + 1) n).reverse).asString

/-- `base.rstrip('0123456789')`. -/
def stripDigits (s : String) : String :=
  ⟨(s.data.reverse.dropWhile Char.isDigit).reverse⟩

/-- The `while candidate in taken` loop of `fresh`, with fuel.  At each
step, if the current candidate is taken, move to `stripped + str(i + 1)`. -/
def freshGo (stripped : String) (taken : Finset String) : Nat → Nat → String → String
  | 0, _, cand => cand
  | fuel + 1, i, cand =>
    if cand ∈ taken then freshGo stripped taken fuel (i + 1) (stripped ++ digitsStr (i + 1))
    else cand

/-- `fresh(base, taken)`: generate a fresh variable name based on `base`,
avoiding names in `taken` (suffixing the digit-stripped base with the
successive integers 1, 2, ...).  `taken.card + 1` loop iterations always
suffice to find a free candidate. -/
def fresh (base : String) (taken : Finset String) : String :=
  freshGo (stripDigits base) taken (taken.card + 1) 0 base

/-- Unparser precedence of a binary operator (relative order as in
Python's `ast.unparse`: `&` below `+` below `*`). -/
def precOf : BOp → Nat
  | .band => 4
  | .add => 6
  | .mult => 7

/-- Rendered operator text, with `ast.unparse` spacing. -/
def opStr : BOp → String
  | .band => " & "
  | .add => " + "
  | .mult => " * "

/-- Wrap in parentheses when required. -/
def parenIf : Bool → String → String
  | true, s => "(" ++ s ++ ")"
  | false, s => s

mutual

/-- `ast.unparse` on the engine's expression fragment; the second argument
is the minimum precedence the context requires (parenthesize below it).
Binary operators are left-associative; lambdas have the lowest
precedence; call/name/constant are atoms. -/
def unparseP : Exp → Nat → String
  | .name _ id, _ => id
  | .const _ n, _ => toString n
  | .call _ f as, _ =>
    unparseP f 11 ++ "(" ++ String.intercalate ", " (unparseList as) ++ ")"
  | .binop _ op l r, req =>
    parenIf (decide (precOf op < req))
      (unparseP l (precOf op) ++ opStr op ++ unparseP r (precOf op + 1))
  | .lam _ ps b, req =>
    parenIf (decide (0 < req))
      ("lambda" ++ (if ps.isEmpty then "" else " " ++ String.intercalate ", " ps)
        ++ ": " ++ unparseP b 0)

/-- Renders each expression of a list at top level (call arguments). -/
def unparseList : List Exp → List String
  | [] => []
  | e :: es => unparseP e 0 :: unparseList es

end

/-- `unparse(node)`: canonical textual rendering. -/
def unparse (e : Exp) : String := unparseP e 0

/-- The user-facing `Node` façade: it owns exactly the AST object
`self.ast` (sharing it, never copying). -/
structure Node where
  ast : Exp

/-- `Node.__eq__`: equality is textual identity of the renderings (the
`isinstance(other, Node)` guard is enforced by the type here). -/
def Node.eq (a b : Node) : Bool := unparse a.ast == unparse b.ast

/-- `ast.walk`: breadth-first traversal (pop front, push the node's
children at the back), listing nodes in the order they are yielded.  The
fuel argument only drives termination; `expSizeList` of the initial queue
always suffices, since each step consumes one node and enqueues strictly
smaller children. -/
def walkList : Nat → List Exp → List Exp
  | 0, _ => []
  | _, [] => []
  | fuel + 1, e :: rest => e :: walkList fuel (rest ++ children e)

/-- `build_env(node, env)`: scan the tree (in `ast.walk` order) and, for
every `Name` whose AST object carries a `_value`, assign
`env[name] = value`, overwriting. -/
def build_env (st : St) (e : Exp) (env0 : Env) : Env :=
  (walkList (expSize e) [e]).foldl
    (fun env n =>
      match n with
      | .name sl id =>
        match st.store sl with
        | some v => updEnv env id v
        | none => env
      | _ => env)
    env0

/-- The (name, attached value) pairs contributed by identifier leaves, in
scan order — the footprint of `build_env`. -/
def envPairs (st : St) (e : Exp) : List (String × Value) :=
  (walkList (expSize e) [e]).filterMap
    (fun n =>
      match n with
      | .name sl id => (st.store sl).map (fun v => (id, v))
      | _ => none)

/-- `toast` on a host value: a `Node` contributes its own AST unchanged
(the `object(ast=node)` case); an `int` becomes a fresh `Constant`;
anything else (opaque objects, floats, function objects) becomes a fresh
`Name` `_k` whose `_value` is the value.  Strings (parsed source) enter
the engine only at construction time and are not produced by evaluation,
so they do not occur here. -/
def toastV (v : Value) (st : St) : Exp × St :=
  match v with
  | .vnode e => (e, st)
  | .vint n => (.const st.nextSlot n, st.alloc)
  | v =>
    let e := Exp.name st.nextSlot ("_" ++ digitsStr st.nextName)
    (e, ⟨updFun st.store st.nextSlot (some v), st.nextSlot + 1, st.nextName + 1⟩)

/-- `toast` applied to a list of operands, left to right. -/
def toastList : List Value → St → List Exp × St
  | [], st => ([], st)
  | v :: vs, st =>
    let (e, st1) := toastV v st
    let (es, st2) := toastList vs st1
    (e :: es, st2)

/-- Host semantics of a binary operation.  A `Node` on the left of `&`
triggers `Node.__and__` (build a fresh `BinOp` over `self.ast` and
`toast(other)` and wrap it); `int op int` computes; everything else is a
`TypeError` (`Node` defines no other binary operator and no reflected
ones). -/
def applyBin (op : BOp) (l r : Value) (st : St) : Except Err (Value × St) :=
  match l, op with
  | .vnode e, .band =>
    let (re, st1) := toastV r st
    .ok (.vnode (.binop st1.nextSlot .band e re), st1.alloc)
  | _, _ =>
    match l, r with
    | .vint a, .vint b =>
      match op with
      | .add => .ok (.vint (a + b), st)
      | .mult => .ok (.vint (a * b), st)
      | .band => .ok (.vint (a.land b), st)
    | _, _ => .error .typeError

mutual

/-- Host expression evaluation (`eval` of compiled code) with locals
`env` and globals `G`.  Names resolve locals-then-globals; a `NameError`
carries the unbound name.  A `Lambda` evaluates to a closure of its
parameters and body — crucially it captures no locals, so names inside
its body later resolve only against globals (the documented quirk). -/
def pureEval : Nat → Env → Env → St → Exp → Except Err (Value × St)
  | 0, _, _, _, _ => .error .fuelOut
  | fuel + 1, G, env, st, e =>
    match e with
    | .name _ id =>
      match env id with
      | some v => .ok (v, st)
      | none =>
        match G id with
        | some v => .ok (v, st)
        | none => .error (.nameError id)
    | .const _ n => .ok (.vint n, st)
    | .lam _ ps b => .ok (.vclos ps b, st)
    | .binop _ op l r =>
      match pureEval fuel G env st l with
      | .error er => .error er
      | .ok (vl, st1) =>
        match pureEval fuel G env st1 r with
        | .error er => .error er
        | .ok (vr, st2) => applyBin op vl vr st2
    | .call _ f as =>
      match pureEval fuel G env st f with
      | .error er => .error er
      | .ok (vf, st1) =>
        match evalArgs fuel G env st1 as with
        | .error er => .error er
        | .ok (vas, st2) => applyV fuel G vf vas st2
termination_by structural fuel _ _ _ _ => fuel

/-- Evaluate call arguments left to right. -/
def evalArgs : Nat → Env → Env → St → List Exp → Except Err (List Value × St)
  | 0, _, _, _, _ => .error .fuelOut
  | _fuel + 1, _, _, st, [] => .ok ([], st)
  | fuel + 1, G, env, st, a :: as =>
    match pureEval fuel G env st a with
    | .error er => .error er
    | .ok (v, st1) =>
      match evalArgs fuel G env st1 as with
      | .error er => .error er
      | .ok (vs, st2) => .ok (v :: vs, st2)
termination_by structural fuel _ _ _ _ => fuel

/-- Apply a callee value.  A closure binds its parameters positionally
and evaluates its body (globals only beyond the parameters).  A `Node`
callee triggers `Node.__call__`: toast the arguments, build a fresh
`Call` over `self.ast`, wrap it.  Anything else is not callable. -/
def applyV : Nat → Env → Value → List Value → St → Except Err (Value × St)
  | 0, _, _, _, _ => .error .fuelOut
  | fuel + 1, G, fv, args, st =>
    match fv with
    | .vclos ps b =>
      if ps.length = args.length then pureEval fuel G (bindParams ps args) st b
      else .error .typeError
    | .vnode e =>
      let (asts, st1) := toastList args st
      .ok (.vnode (.call st1.nextSlot e asts), st1.alloc)
    | _ => .error .typeError
termination_by structural fuel _ _ _ _ => fuel

end

/-- `asteval(node, env)`: collect the `_value` bindings of the tree into
the supplied environment (`build_env`), then evaluate against it as
locals, with ambient globals `G`. -/
def asteval (fuel : Nat) (G : Env) (st : St) (e : Exp) (env0 : Env) :
    Except Err (Value × St) :=
  pureEval fuel G (build_env st e env0) st e

/-- `asteval` as called inside the engine (default empty environment),
discarding the resulting allocation state: the callers below only use the
returned value, and `asteval` never writes to an existing slot. -/
def astevalVal (fuel : Nat) (G : Env) (st : St) (e : Exp) : Except Err Value :=
  (asteval fuel G st e emptyEnv).map Prod.fst

/-- `is_concrete(node)`: a value is concrete unless it is a lambda
function or a `Node`. -/
def is_concrete : Value → Bool
  | .vclos _ _ => false
  | .vnode _ => false
  | _ => true

/-- `isinstance(v, Node)`. -/
def isNode : Value → Bool
  | .vnode _ => true
  | _ => false

mutual

/-- `Node.are_calls_concrete`: a `Lambda` is immediately concrete; for a
`Call`, evaluate the function subtree — if that value is concrete,
evaluate every argument subtree and fail early if any yields a `Node`;
otherwise (and in every remaining case) check
`all(child.are_calls_concrete() for child in self.children())`, stopping
at the first failing child.  Exceptions from the inner evaluations
propagate.  The children check is written out per node kind (leaves have
no children; a `Call`'s children are its function followed by its
arguments; a `BinOp`'s are left then right), which is exactly `accAll`
over `children e` but lets the recursion be structural. -/
def are_calls_concrete (fuel : Nat) (G : Env) (st : St) : Exp → Except Err Bool
  | .name _ _ => .ok true
  | .const _ _ => .ok true
  | .lam _ _ _ => .ok true
  | .binop _ _ l r =>
    match are_calls_concrete fuel G st l with
    | .error er => .error er
    | .ok false => .ok false
    | .ok true => are_calls_concrete fuel G st r
  | .call _ f as =>
    match astevalVal fuel G st f with
    | .error er => .error er
    | .ok vf =>
      if is_concrete vf then
        match as.mapM (fun a => astevalVal fuel G st a) with
        | .error er => .error er
        | .ok vs =>
          if vs.any isNode then .ok false
          else
            match are_calls_concrete fuel G st f with
            | .error er => .error er
            | .ok false => .ok false
            | .ok true => accAll fuel G st as
      else
        match are_calls_concrete fuel G st f with
        | .error er => .error er
        | .ok false => .ok false
        | .ok true => accAll fuel G st as

/-- `all(child.are_calls_concrete() for child in cs)`, with the
generator's short-circuiting. -/
def accAll (fuel : Nat) (G : Env) (st : St) : List Exp → Except Err Bool
  | [] => .ok true
  | c :: cs =>
    match are_calls_concrete fuel G st c with
    | .error er => .error er
    | .ok true => accAll fuel G st cs
    | .ok false => .ok false

end

mutual

/-- `free_vars(node)`: a loaded `Name` is free; a `Lambda` contributes
its body's free variables minus its parameters; any other node unions its
children's free variables. -/
def free_vars : Exp → Finset String
  | .name _ id => {id}
  | .const _ _ => ∅
  | .call _ f as => free_vars f ∪ freeVarsList as
  | .binop _ _ l r => free_vars l ∪ free_vars r
  | .lam _ ps b => free_vars b \ ps.toFinset

/-- `star_union(free_vars(c) for c in children)`. -/
def freeVarsList : List Exp → Finset String
  | [] => ∅
  | e :: es => free_vars e ∪ freeVarsList es

end

/-- `star_union(free_vars(v) for v in nonlocals.values())`: reify each
closed-over value (`free_vars` starts by `toast`-ing its argument, which
allocates for non-`Node` values) and union the free identifiers. -/
def freeInClosure : List (String × Value) → St → Finset String × St
  | [], st => (∅, st)
  | (_, v) :: rest, st =>
    let (e, st1) := toastV v st
    let (s, st2) := freeInClosure rest st1
    (free_vars e ∪ s, st2)

/-- The renaming loop of `make_lambda`: every parameter colliding with a
closed-over free identifier is replaced by `fresh(arg, taken)`; `taken`
is *not* updated between renamings. -/
def renameArgs (freeC taken : Finset String) (args : List String) : List String :=
  args.map (fun a => if a ∈ freeC then fresh a taken else a)

/-- `inputs = [Node(arg) for arg in args]; for x in inputs: x.value = x`:
allocate one placeholder `Name` per (possibly renamed) parameter and set
its `_value` to its own wrapper. -/
def allocPlaceholders : List String → St → List Value × St
  | [], st => ([], st)
  | a :: rest, st =>
    let e := Exp.name st.nextSlot a
    let st1 : St := ⟨updFun st.store st.nextSlot (some (.vnode e)), st.nextSlot + 1, st.nextName⟩
    let (vs, st2) := allocPlaceholders rest st1
    (Value.vnode e :: vs, st2)

mutual

/-- `Node.__init__` on an evaluation result: a `Node` shares its AST; a
lambda function goes through `make_lambda`; an `int` toasts to a
`Constant`; anything else toasts to an opaque leaf. -/
def nodeOfValue : Nat → Env → St → Value → Except Err (Exp × St)
  | 0, _, _, _ => .error .fuelOut
  | _fuel + 1, _, st, .vnode e => .ok (e, st)
  | fuel + 1, G, st, .vclos ps b => make_lambda fuel G st ps [] ∅ b
  | _fuel + 1, _, st, v => .ok (toastV v st)
termination_by structural fuel _ _ _ => fuel

/-- `make_lambda(lamb)` for a closure with declared parameters `params`,
closed-over bindings `nonlocals`, and visible global names `globNames`
(for a closure compiled from a tree by the engine's own evaluator,
`nonlocals` is empty and `globNames` is irrelevant because nothing is
renamed).  Steps: compute the free identifiers of the reified closed-over
values; build `taken`; rename colliding parameters; allocate placeholder
arguments whose `_value` is themselves; invoke the closure's body with
the placeholders bound positionally to the *original* parameter names
(locals) and the closed-over bindings visible (cells), globals `G`;
reify the result as the emitted body; emit a fresh `Lambda`. -/
def make_lambda : Nat → Env → St → List String → List (String × Value) → Finset String → Exp → Except Err (Exp × St)
  | 0, _, _, _, _, _, _ => .error .fuelOut
  | fuel + 1, G, st, params, nonlocals, globNames, body =>
    let (freeC, st1) := freeInClosure nonlocals st
    let taken := freeC ∪ globNames ∪ params.toFinset
    let args := renameArgs freeC taken params
    let (phs, st2) := allocPlaceholders args st1
    let env := overlay (bindParams params phs) (envOfList nonlocals)
    match pureEval fuel G env st2 body with
    | .error er => .error er
    | .ok (v, st3) =>
      match nodeOfValue fuel G st3 v with
      | .error er => .error er
      | .ok (be, st4) => .ok (.lam st4.nextSlot args be, st4.alloc)
termination_by structural fuel _ _ _ _ _ _ => fuel

end

/-- `Node.eval`: if the concreteness check fails, return `None` (still
symbolic); otherwise evaluate; if the result is a lambda function,
re-wrap it as a `Node` (through `make_lambda`); any `NameError` raised
anywhere inside is caught and turned into `None`. -/
def evalExp (fuel : Nat) (G : Env) (st : St) (e : Exp) : Except Err (Option Value) :=
  match are_calls_concrete fuel G st e with
  | .error (.nameError _) => .ok none
  | .error er => .error er
  | .ok false => .ok none
  | .ok true =>
    match asteval fuel G st e emptyEnv with
    | .error (.nameError _) => .ok none
    | .error er => .error er
    | .ok (v, st1) =>
      match v with
      | .vclos ps b =>
        match make_lambda fuel G st1 ps [] ∅ b with
        | .error (.nameError _) => .ok none
        | .error er => .error er
        | .ok (e2, _) => .ok (some (.vnode e2))
      | v => .ok (some v)

/-- `Node.eval` on the façade. -/
def Node.eval (fuel : Nat) (G : Env) (st : St) (n : Node) : Except Err (Option Value) :=
  evalExp fuel G st n.ast

/-- `Node.__call__`: toast the arguments, build a fresh `Call` whose
function child is `self.ast`, and wrap it in a new `Node`. -/
def Node.call (n : Node) (args : List Value) (st : St) : Node × St :=
  let (asts, st1) := toastList args st
  (⟨.call st1.nextSlot n.ast asts⟩, st1.alloc)

/-- `Node.__and__`: build a fresh `BinOp(BitAnd)` over `self.ast` and
`toast(other)`, wrapped in a new `Node`. -/
def Node.and (n : Node) (other : Value) (st : St) : Node × St :=
  let (re, st1) := toastV other st
  (⟨.binop st1.nextSlot .band n.ast re⟩, st1.alloc)

/-- The in-place compound operators defined on `Node`. -/
inductive IOp
  | iadd
  | isub
  | imul
  | itruediv
  | iand
  | ior
  | ixor

/-- Integer semantics of the in-place operators (`/=` produces a host
float, modelled as the exact pair). -/
def iopInt : IOp → Int → Int → Value
  | .iadd, a, b => .vint (a + b)
  | .isub, a, b => .vint (a - b)
  | .imul, a, b => .vint (a * b)
  | .itruediv, a, b => .vfloat a b
  | .iand, a, b => .vint (a.land b)
  | .ior, a, b => .vint (a.lor b)
  | .ixor, a, b => .vint (a.xor b)

/-- `Node.__iadd__` and friends: `self.value ⊕= other; return self`.
Reads the `_value` of the root AST object and writes the combined value
back to the same slot; `None ⊕ other` and symbolic values raise
`TypeError` (only the integer case is modelled — opaque host accumulators
have no modelled operators). -/
def Node.iop (op : IOp) (n : Node) (other : Int) (st : St) : Except Err (Node × St) :=
  match st.store (rootSlot n.ast) with
  | some (.vint a) => .ok (n, St.write st (rootSlot n.ast) (iopInt op a other))
  | _ => .error .typeError

/-- The `value` property: `getattr(self.ast, '_value', None)`. -/
def Node.value (st : St) (n : Node) : Option Value := st.store (rootSlot n.ast)

/-- The `value` setter: `self.ast._value = value`. -/
def Node.setValue (n : Node) (v : Value) (st : St) : St :=
  St.write st (rootSlot n.ast) v

/-- `Node(node)` on an existing `Node`: the `case Node(ast=_ast)` branch
of `Node.__init__` — the new wrapper shares the same AST object. -/
def Node.ofNode (m : Node) : Node := ⟨m.ast⟩

/-- `Node.children()`: wrap each expression child in a `Node` (sharing
the child AST objects). -/
def Node.childNodes (n : Node) : List Node := (children n.ast).map (fun c => ⟨c⟩)

/-- Parameter list of an emitted abstraction. -/
def lamParams : Exp → List String
  | .lam _ ps _ => ps
  | _ => []

/-- Empty ambient globals. -/
def G0 : Env := fun _ => none

/-- A state with no attached values. -/
def st0 : St := ⟨fun _ => none, 100, 0⟩

/-- A state where slot 0 (a leaf `f`) holds a symbolic `Node` and slot 2
(a leaf `x`) holds another symbolic `Node`. -/
def stA : St :=
  ⟨fun n => if n = 0 then some (.vnode (.name 1 "g"))
            else if n = 2 then some (.vnode (.name 4 "z")) else none,
   100, 0⟩

/-- A state where slot 5 (a leaf `h`) holds a symbolic `Node` and slot 7
(a leaf `y`) holds another symbolic `Node`. -/
def stB : St :=
  ⟨fun n => if n = 5 then some (.vnode (.name 6 "w"))
            else if n = 7 then some (.vnode (.name 8 "u")) else none,
   200, 0⟩

/-- A state where slot 0 holds the concrete `1` and slot 2 holds a
symbolic `Node`. -/
def stC : St :=
  ⟨fun n => if n = 0 then some (.vint 1)
            else if n = 2 then some (.vnode (.name 4 "z")) else none,
   100, 0⟩

/-- A state where slots 0 and 1 hold the distinct concrete values 1, 2. -/
def stD : St :=
  ⟨fun n => if n = 0 then some (.vint 1)
            else if n = 1 then some (.vint 2) else none,
   100, 0⟩

/-- C3: `Node` equality holds iff the textual renderings are identical —
attached values are irrelevant (the demonstration pair wraps two distinct
leaf objects whose slots carry different values, yet compares equal), and
no structural comparison beyond the rendering is involved. -/
theorem node_eq_textual :
    (∀ a b : Node, Node.eq a b = true ↔ unparse a.ast = unparse b.ast)
    ∧ (Node.eq ⟨.name 0 "x"⟩ ⟨.name 1 "x"⟩ = true
        ∧ Node.value stD ⟨.name 0 "x"⟩ = some (.vint 1)
        ∧ Node.value stD ⟨.name 1 "x"⟩ = some (.vint 2)) :=
  ⟨fun a b => by simp [Node.eq], rfl, rfl, rfl⟩

/-- The evaluation entry point never returns an uncaught `NameError`
(shared analysis of all branches of `Node.eval`). -/
theorem evalExp_no_name_error (fuel : Nat) (G : Env) (st : St) (e : Exp) :
    ∀ s, evalExp fuel G st e ≠ .error (.nameError s) := by
  intro s h
  rcases hacc : are_calls_concrete fuel G st e with er | b
  · cases er <;> simp [evalExp, hacc] at h
  · cases b
    · simp [evalExp, hacc] at h
    · rcases hev : asteval fuel G st e emptyEnv with er | vp
      · cases er <;> simp [evalExp, hacc, hev] at h
      · obtain ⟨v, st1⟩ := vp
        cases v <;> try simp [evalExp, hacc, hev] at h
        rename_i ps b
        rcases hml : make_lambda fuel G st1 ps [] ∅ b with er | ep
        · cases er <;> simp [evalExp, hacc, hev, hml] at h
        · simp [evalExp, hacc, hev, hml] at h

/-- C5: the evaluation entry point never propagates a `NameError`: if the
concreteness check raises one it is caught and `None` is returned, and if
the underlying evaluator raises one after a successful concreteness
check, it is likewise caught and `None` is returned. -/
theorem eval_never_raises_name_error (fuel : Nat) (G : Env) (st : St) (e : Exp) :
    (∀ s, evalExp fuel G st e ≠ .error (.nameError s))
    ∧ (∀ s, are_calls_concrete fuel G st e = .error (.nameError s) →
        evalExp fuel G st e = .ok none)
    ∧ (are_calls_concrete fuel G st e = .ok true →
        ∀ s, asteval fuel G st e emptyEnv = .error (.nameError s) →
          evalExp fuel G st e = .ok none) := by
  refine ⟨evalExp_no_name_error fuel G st e, ?_, ?_⟩
  · intro s hacc
    simp [evalExp, hacc]
  · intro hacc s hev
    simp [evalExp, hacc, hev]

/-- Witness for C5 at a concrete input: the tree is the bare unbound leaf
`x`; the concreteness check succeeds, the evaluator raises
`NameError('x')`, and `Node.eval` returns `None`. -/
theorem eval_never_raises_name_error_witness :
    evalExp 5 G0 st0 (.name 3 "x") = .ok none :=
  (eval_never_raises_name_error 5 G0 st0 (.name 3 "x")).2.2 rfl "x" rfl

/-- C10: wrapping an existing `Node` shares the underlying AST object
(same slot), the child wrappers share the child subtrees, and any two
wrappers of the same tree alias the attached-value slot: a value set
through one is read back through the other, in both directions. -/
theorem node_sharing_aliasing :
    (∀ n : Node, (Node.ofNode n).ast = n.ast)
    ∧ (∀ (m n : Node) (st : St) (v : Value), m.ast = n.ast →
        Node.value (Node.setValue m v st) n = some v
        ∧ Node.value (Node.setValue n v st) m = some v)
    ∧ (∀ n : Node, (Node.childNodes n).map Node.ast = children n.ast) := by
  refine ⟨fun n => rfl, fun m n st v h => ?_, fun n => ?_⟩
  · constructor <;> simp [Node.value, Node.setValue, St.write, updFun, h]
  · simp only [Node.childNodes, List.map_map]
    exact List.map_id _ ▸ rfl

/-- Witness for C10 at a concrete input: two wrappers of the same leaf
object alias its attached value. -/
theorem node_sharing_aliasing_witness :
    Node.value (Node.setValue ⟨.name 0 "x"⟩ (.vint 7) st0) ⟨.name 0 "x"⟩ = some (.vint 7)
    ∧ Node.value (Node.setValue ⟨.name 0 "x"⟩ (.vint 7) st0) ⟨.name 0 "x"⟩ = some (.vint 7) :=
  node_sharing_aliasing.2.1 ⟨.name 0 "x"⟩ ⟨.name 0 "x"⟩ st0 (.vint 7) rfl

/-- `toast` only allocates: slots that already existed keep their stored
values, and the slot counter does not decrease. -/
theorem toastV_frame (v : Value) (st : St) :
    st.nextSlot ≤ (toastV v st).2.nextSlot
    ∧ ∀ k, k < st.nextSlot → (toastV v st).2.store k = st.store k := by
  cases v <;> simp [toastV, St.alloc] <;>
    exact fun k hk => by simp [updFun]; intro h; omega

/-- `toast` over a list of operands only allocates. -/
theorem toastList_frame (vs : List Value) :
    ∀ st : St, st.nextSlot ≤ (toastList vs st).2.nextSlot
      ∧ ∀ k, k < st.nextSlot → (toastList vs st).2.store k = st.store k := by
  induction vs with
  | nil => intro st; exact ⟨le_rfl, fun k _ => rfl⟩
  | cons v vs ih =>
    intro st
    have h1 := toastV_frame v st
    have h2 := ih (toastV v st).2
    constructor
    · simp only [toastList]
      exact le_trans h1.1 h2.1
    · intro k hk
      simp only [toastList]
      rw [h2.2 k (lt_of_lt_of_le hk h1.1), h1.2 k hk]

/-- C9: `Node.__call__` and `Node.__and__` build a new `Call`/`BinOp`
node over the reified operands, wrapped in a new `Node`, and never write
to any pre-existing attached-value slot (operands are not mutated); the
in-place compound operators, applied to a `Node` wrapping an identifier
leaf, return the same `Node` over the unchanged tree and write only that
leaf's attached-value slot. -/
theorem composition_never_mutates :
    (∀ (n : Node) (args : List Value) (st : St),
        (Node.call n args st).1.ast
          = .call ((toastList args st).2.nextSlot) n.ast (toastList args st).1
        ∧ (∀ k, k < st.nextSlot → ((Node.call n args st).2).store k = st.store k)
        ∧ st.nextSlot < ((Node.call n args st).2).nextSlot)
    ∧ (∀ (n : Node) (other : Value) (st : St),
        (Node.and n other st).1.ast
          = .binop ((toastV other st).2.nextSlot) .band n.ast (toastV other st).1
        ∧ (∀ k, k < st.nextSlot → ((Node.and n other st).2).store k = st.store k)
        ∧ st.nextSlot < ((Node.and n other st).2).nextSlot)
    ∧ (∀ (op : IOp) (sl : Nat) (x : String) (v : Int) (st : St) (m : Node) (st' : St),
        Node.iop op ⟨.name sl x⟩ v st = .ok (m, st') →
        m = ⟨.name sl x⟩
        ∧ st'.nextSlot = st.nextSlot
        ∧ (∀ k, k ≠ sl → st'.store k = st.store k)
        ∧ ∃ a, st.store sl = some (.vint a) ∧ st'.store sl = some (iopInt op a v)) := by
  refine ⟨fun n args st => ?_, fun n other st => ?_, fun op sl x v st m st' h => ?_⟩
  · have hf := toastList_frame args st
    exact ⟨rfl, fun k hk => hf.2 k hk, lt_of_le_of_lt hf.1 (Nat.lt_succ_self _)⟩
  · have hf := toastV_frame other st
    exact ⟨rfl, fun k hk => hf.2 k hk, lt_of_le_of_lt hf.1 (Nat.lt_succ_self _)⟩
  · rcases hs : st.store sl with _ | w
    · simp [Node.iop, rootSlot, hs] at h
    · cases w <;> simp [Node.iop, rootSlot, hs] at h
      rename_i a
      obtain ⟨hm, hst⟩ := h
      subst hm hst
      refine ⟨rfl, rfl, fun k hk => ?_, a, rfl, ?_⟩
      · simp [St.write, updFun, hk]
      · simp [St.write, updFun]

/-- Witness for C9 at a concrete input: `n += 1` on a leaf holding `1`
yields the same node, the same slot counter, an untouched store away from
the leaf's slot, and `2` in the leaf's slot. -/
theorem composition_never_mutates_witness :
    (⟨.name 0 "x"⟩ : Node) = ⟨.name 0 "x"⟩
    ∧ (St.write stD 0 (iopInt .iadd 1 1)).nextSlot = stD.nextSlot
    ∧ (∀ k, k ≠ 0 → (St.write stD 0 (iopInt .iadd 1 1)).store k = stD.store k)
    ∧ ∃ a, stD.store 0 = some (.vint a)
        ∧ (St.write stD 0 (iopInt .iadd 1 1)).store 0 = some (iopInt .iadd a 1) :=
  composition_never_mutates.2.2 .iadd 0 "x" 1 stD ⟨.name 0 "x"⟩
    (St.write stD 0 (iopInt .iadd 1 1)) rfl

/-- `digitChar` is injective on digits. -/
theorem digitChar_inj : ∀ a < 10, ∀ b < 10, digitChar a = digitChar b → a = b := by decide

/-- The digit list of a positive number is nonempty (given fuel). -/
theorem digitsAux_ne_nil (fuel n : Nat) (hf : 0 < fuel) (hn : 0 < n) :
    digitsAux fuel n ≠ [] := by
  cases fuel with
  | zero => omega
  | succ f =>
    cases n with
    | zero => omega
    | succ m => simp [digitsAux]

/-- Decimal digit lists determine the number (for any sufficient fuel). -/
theorem digitsAux_inj (n : Nat) : ∀ (m fuel fuel' : Nat), n ≤ fuel → m ≤ fuel' →
    digitsAux fuel n = digitsAux fuel' m → n = m := by
  induction n using Nat.strong_induction_on with
  | _ n ih =>
    intro m fuel fuel' hnf hmf h
    cases n with
    | zero =>
      cases m with
      | zero => rfl
      | succ m' =>
        exfalso
        have hne := digitsAux_ne_nil fuel' (m' + 1) (by omega) (by omega)
        cases fuel <;> simp [digitsAux] at h <;> exact hne h
    | succ n' =>
      cases m with
      | zero =>
        exfalso
        have hne := digitsAux_ne_nil fuel (n' + 1) (by omega) (by omega)
        cases fuel' <;> simp [digitsAux] at h <;> exact hne h
      | succ m' =>
        cases fuel with
        | zero => omega
        | succ f =>
          cases fuel' with
          | zero => omega
          | succ f' =>
            simp only [digitsAux, List.cons.injEq] at h
            have hmod : (n' + 1) % 10 = (m' + 1) % 10 :=
              digitChar_inj _ (Nat.mod_lt _ (by omega)) _ (Nat.mod_lt _ (by omega)) h.1
            have hdivlt : (n' + 1) / 10 < n' + 1 := Nat.div_lt_self (by omega) (by omega)
            have hdiv : (n' + 1) / 10 = (m' + 1) / 10 := by
              refine ih _ hdivlt _ f f' (by omega) ?_ h.2
              have : (m' + 1) / 10 < m' + 1 := Nat.div_lt_self (by omega) (by omega)
              omega
            have e1 := Nat.div_add_mod (n' + 1) 10
            have e2 := Nat.div_add_mod (m' + 1) 10
            omega

/-- Decimal renderings of positive numbers are injective. -/
theorem digitsStr_inj (n m : Nat) (hn : 0 < n) (hm : 0 < m)
    (h : digitsStr n = digitsStr m) : n = m := by
  rw [digitsStr, digitsStr, if_neg (by omega), if_neg (by omega)] at h
  have hdata : ((digitsAux (n + 1) n).reverse) = ((digitsAux (m + 1) m).reverse) := by
    have := congrArg String.data h
    simpa [List.asString] using this
  have := List.reverse_injective hdata
  exact digitsAux_inj n m (n + 1) (m + 1) (by omega) (by omega) this

/-- String append is left-cancellative. -/
theorem strAppend_left_cancel {s a b : String} (h : s ++ a = s ++ b) : a = b := by
  have : (s ++ a).data = (s ++ b).data := by rw [h]
  simp only [String.data_append] at this
  exact String.ext (List.append_cancel_left this)

/-- Fresh-name candidates with distinct positive suffixes are distinct. -/
theorem cand_inj (s : String) (a b : Nat) (ha : 0 < a) (hb : 0 < b)
    (h : s ++ digitsStr a = s ++ digitsStr b) : a = b :=
  digitsStr_inj a b ha hb (strAppend_left_cancel h)

/-- Pigeonhole: among the candidates `s ++ str(1) ... s ++ str(card + 1)`
at least one is not taken. -/
theorem exists_free_cand (s : String) (taken : Finset String) :
    ∃ j, 0 < j ∧ j ≤ taken.card + 1 ∧ s ++ digitsStr j ∉ taken := by
  by_contra hcon
  push_neg at hcon
  have hsub : (Finset.Icc 1 (taken.card + 1)).image (fun j => s ++ digitsStr j) ⊆ taken := by
    intro x hx
    simp only [Finset.mem_image, Finset.mem_Icc] at hx
    obtain ⟨j, ⟨hj1, hj2⟩, rfl⟩ := hx
    exact hcon j (by omega) hj2
  have hinj : Set.InjOn (fun j => s ++ digitsStr j) (Finset.Icc 1 (taken.card + 1)) := by
    intro a ha b hb hab
    simp only [Finset.coe_Icc, Set.mem_Icc] at ha hb
    exact cand_inj s a b (by omega) (by omega) hab
  have hcard := Finset.card_image_of_injOn hinj
  have hle := Finset.card_le_card hsub
  rw [hcard, Nat.card_Icc] at hle
  omega

/-- If the current candidate is already free, the loop returns it. -/
theorem freshGo_id (s : String) (taken : Finset String) (fuel i : Nat) (cand : String)
    (h : cand ∉ taken) : freshGo s taken fuel i cand = cand := by
  cases fuel <;> simp [freshGo, h]

/-- If every candidate strictly between the current index and `j` is
taken and candidate `j` is free, the loop reaches exactly candidate `j`
(given fuel). -/
theorem freshGo_reach (s : String) (taken : Finset String) :
    ∀ (fuel i : Nat) (cand : String) (j : Nat), i < j → j ≤ i + fuel →
    (∀ k, i < k → k < j → s ++ digitsStr k ∈ taken) →
    s ++ digitsStr j ∉ taken →
    cand ∈ taken →
    freshGo s taken fuel i cand = s ++ digitsStr j := by
  intro fuel
  induction fuel with
  | zero => intro i cand j h1 h2 _ _ _; omega
  | succ f ih =>
    intro i cand j h1 h2 hk hj hc
    simp only [freshGo, if_pos hc]
    by_cases hij : i + 1 = j
    · subst hij
      exact freshGo_id s taken f (i + 1) _ hj
    · exact ih (i + 1) _ j (by omega) (by omega)
        (fun k hk1 hk2 => hk k (by omega) hk2) hj (hk (i + 1) (by omega) (by omega))

/-- When the base name is taken, `fresh` returns the digit-stripped base
suffixed with the smallest positive integer whose candidate is free. -/
theorem fresh_spec_mem (base : String) (taken : Finset String) (hb : base ∈ taken) :
    ∃ j, 0 < j ∧ fresh base taken = stripDigits base ++ digitsStr j
      ∧ stripDigits base ++ digitsStr j ∉ taken
      ∧ ∀ k, 0 < k → k < j → stripDigits base ++ digitsStr k ∈ taken := by
  classical
  obtain ⟨j0, hj0pos, hj0le, hj0free⟩ := exists_free_cand (stripDigits base) taken
  have hex : ∃ j, 0 < j ∧ stripDigits base ++ digitsStr j ∉ taken := ⟨j0, hj0pos, hj0free⟩
  have hspec := Nat.find_spec hex
  have hle : Nat.find hex ≤ j0 := Nat.find_min' hex ⟨hj0pos, hj0free⟩
  have hmin : ∀ k, 0 < k → k < Nat.find hex → stripDigits base ++ digitsStr k ∈ taken := by
    intro k hk hkj
    by_contra hcontra
    exact Nat.find_min hex hkj ⟨hk, hcontra⟩
  refine ⟨Nat.find hex, hspec.1, ?_, hspec.2, hmin⟩
  exact freshGo_reach (stripDigits base) taken (taken.card + 1) 0 base (Nat.find hex)
    hspec.1 (by omega) (fun k hk1 hk2 => hmin k hk1 hk2) hspec.2 hb

/-- `fresh` never returns a taken name. -/
theorem fresh_not_mem (base : String) (taken : Finset String) :
    fresh base taken ∉ taken := by
  by_cases hb : base ∈ taken
  · obtain ⟨j, _, heq, hfree, _⟩ := fresh_spec_mem base taken hb
    rw [heq]
    exact hfree
  · rw [fresh, freshGo_id _ _ _ _ _ hb]
    exact hb

/-- C7: fresh-name generation is deterministic (it is a function of its
inputs), returns `a3` on base `a` with taken set `{a, a1, a2}`, never
returns a taken name, keeps a free base unchanged, and otherwise suffixes
the digit-stripped (alphabetic) base with the smallest positive integer
avoiding collision. -/
theorem fresh_name_determinism :
    fresh "a" ({"a", "a1", "a2"} : Finset String) = "a3"
    ∧ (∀ (base : String) (taken : Finset String), fresh base taken ∉ taken)
    ∧ (∀ (base : String) (taken : Finset String), base ∉ taken → fresh base taken = base)
    ∧ (∀ (base : String) (taken : Finset String), base ∈ taken →
        ∃ j, 0 < j ∧ fresh base taken = stripDigits base ++ digitsStr j
          ∧ stripDigits base ++ digitsStr j ∉ taken
          ∧ ∀ k, 0 < k → k < j → stripDigits base ++ digitsStr k ∈ taken) :=
  ⟨rfl, fresh_not_mem,
   fun base taken h => by rw [fresh, freshGo_id _ _ _ _ _ h],
   fresh_spec_mem⟩

/-- Witness for C7 at a concrete input: `b` is free in `{a}`, so it is
returned unchanged. -/
theorem fresh_name_determinism_witness :
    fresh "b" ({"a"} : Finset String) = "b" :=
  fresh_name_determinism.2.2.1 "b" {"a"} (by decide)

/-- Pairs of a list zipped with its own image under a map relate each
element to its image. -/
theorem zip_map_self {α β : Type} (l : List α) (f : α → β) :
    ∀ p ∈ l.zip (l.map f), p.2 = f p.1 := by
  induction l with
  | nil => intro p hp; simp at hp
  | cons a rest ih =>
    intro p hp
    simp only [List.map_cons, List.zip_cons_cons, List.mem_cons] at hp
    rcases hp with rfl | hp
    · rfl
    · exact ih p hp

/-- C2 (amended): in the lambda lifter, exactly the declared parameters
that collide with a free identifier of the reified closed-over values are
renamed; each renamed parameter receives a fresh name outside the whole
taken set (free identifiers ∪ visible globals ∪ original parameters) — so
the renaming can capture no name meaningful to the closure — while
non-colliding parameters keep their names and the parameter count is
preserved; the emitted abstraction carries exactly this renamed parameter
list.  (The renamed names need not be pairwise distinct: `taken` is not
updated between renamings — see the counterexample.) -/
theorem make_lambda_renaming (params : List String) (nonlocals : List (String × Value))
    (globNames : Finset String) (st : St) :
    (∀ p ∈ params.zip (renameArgs (freeInClosure nonlocals st).1
        ((freeInClosure nonlocals st).1 ∪ globNames ∪ params.toFinset) params),
        (p.1 ∉ (freeInClosure nonlocals st).1 → p.2 = p.1)
        ∧ (p.1 ∈ (freeInClosure nonlocals st).1 →
            p.2 ∉ (freeInClosure nonlocals st).1 ∪ globNames ∪ params.toFinset))
    ∧ (renameArgs (freeInClosure nonlocals st).1
        ((freeInClosure nonlocals st).1 ∪ globNames ∪ params.toFinset) params).length
        = params.length
    ∧ (∀ (fuel : Nat) (G : Env) (body : Exp) (r : Exp × St),
        make_lambda (fuel + 1) G st params nonlocals globNames body = .ok r →
        lamParams r.1 = renameArgs (freeInClosure nonlocals st).1
          ((freeInClosure nonlocals st).1 ∪ globNames ∪ params.toFinset) params) := by
  refine ⟨?_, by simp [renameArgs], ?_⟩
  · intro p hp
    have h2 := zip_map_self params _ p hp
    constructor
    · intro hout
      rw [h2, if_neg hout]
    · intro hin
      rw [h2, if_pos hin]
      exact fresh_not_mem _ _
  · intro fuel G body r h
    simp only [make_lambda] at h
    split at h
    · cases h
    · split at h
      · cases h
      · cases h
        rfl

/-- Witness for C2 at a concrete input: lifting a closure
`lambda a, b: ...` that captures a value reified to a tree containing the
leaf `a` renames parameter `a` (paired with `a1` in the zip) to a name
outside the taken set, here `a1`. -/
theorem make_lambda_renaming_witness :
    ("a", "a1").2 ∉ (freeInClosure [("c", Value.vnode (.name 9 "a"))] st0).1 ∪ ∅
      ∪ (["a", "b"] : List String).toFinset :=
  ((make_lambda_renaming ["a", "b"] [("c", Value.vnode (.name 9 "a"))] ∅ st0).1
    ("a", "a1") (by decide)).2 (by decide)

/-- C2 counterexample: with declared parameters `a` and `a1` both
colliding with free identifiers of the captured value, both are renamed
to the *same* fresh name `a2` (the taken set is not updated between
renamings), so the emitted parameter names are not pairwise distinct —
refuting the claim as stated. -/
theorem make_lambda_renaming_counterexample :
    (make_lambda 20 G0 st0 ["a", "a1"]
        [("c", .vnode (.binop 0 .band (.name 1 "a") (.name 2 "a1")))] ∅ (.name 50 "c")).map
      (fun p => lamParams p.1) = .ok ["a2", "a2"]
    ∧ ¬ (["a2", "a2"] : List String).Nodup :=
  ⟨rfl, by simp⟩

/-- `find?` over an append searches the left list first. -/
theorem find?_append {α : Type} (l1 l2 : List α) (p : α → Bool) :
    (l1 ++ l2).find? p = match l1.find? p with
      | some a => some a
      | none => l2.find? p := by
  induction l1 with
  | nil => simp
  | cons a l ih =>
    cases hp : p a with
    | true =>
      rw [List.cons_append, List.find?_cons_of_pos _ hp, List.find?_cons_of_pos _ hp]
    | false =>
      have hp' : ¬ p a = true := by simp [hp]
      rw [List.cons_append, List.find?_cons_of_neg _ hp', List.find?_cons_of_neg _ hp', ih]

/-- The `for n in ast.walk(...)` loop of `build_env`, characterized: the
resulting binding of each name is the value of the *last* valued leaf of
that name in scan order, and the supplied environment answers only when
no valued leaf of that name exists. -/
theorem scan_lookup (st : St) (l : List Exp) :
    ∀ (env0 : Env) (x : String),
      (l.foldl (fun env n =>
        match n with
        | .name sl id =>
          match st.store sl with
          | some v => updEnv env id v
          | none => env
        | _ => env) env0) x
      = match (l.filterMap (fun n =>
            match n with
            | .name sl id => (st.store sl).map (fun v => (id, v))
            | _ => none)).reverse.find? (fun p => p.1 == x) with
        | some p => some p.2
        | none => env0 x := by
  induction l with
  | nil => intro env0 x; rfl
  | cons n rest ih =>
    intro env0 x
    rw [List.foldl_cons, ih]
    cases n with
    | name sl id =>
      cases hs : st.store sl with
      | none => simp [List.filterMap_cons, hs]
      | some v =>
        have hfm : (List.filterMap (fun n =>
            match n with
            | Exp.name sl id => (st.store sl).map (fun v => (id, v))
            | _ => none) (Exp.name sl id :: rest))
            = (id, v) :: List.filterMap (fun n =>
                match n with
                | Exp.name sl id => (st.store sl).map (fun v => (id, v))
                | _ => none) rest := by
          simp [List.filterMap_cons, hs]
        rw [hfm, List.reverse_cons, find?_append]
        cases hf : (List.filterMap (fun n =>
            match n with
            | Exp.name sl id => (st.store sl).map (fun v => (id, v))
            | _ => none) rest).reverse.find? (fun p => p.1 == x) with
        | some p => rfl
        | none =>
          simp only [hs, List.find?]
          by_cases hx : id = x
          · subst hx
            simp [updEnv]
          · have hq : (((id, v) : String × Value).1 == x) = false := by simp [hx]
            simp only [hq]
            simp [updEnv, Ne.symm hx]
    | const sl c => simp [List.filterMap_cons]
    | call sl f as => simp [List.filterMap_cons]
    | binop sl op le re => simp [List.filterMap_cons]
    | lam sl ps b => simp [List.filterMap_cons]

/-- C6: `build_env` inserts `name → value` for every identifier leaf
carrying an attached value, in scan order with overwriting: the binding
returned for a name is the one of the last valued leaf of that name in
the deterministic scan (last-write-wins), leaf-derived bindings take
precedence over the supplied environment, and the supplied environment
is consulted only for names with no valued leaf. -/
theorem build_env_last_write_wins (st : St) (e : Exp) (env0 : Env) (x : String) :
    (build_env st e env0 x
      = match (envPairs st e).reverse.find? (fun p => p.1 == x) with
        | some p => some p.2
        | none => env0 x)
    ∧ (∀ v, (x, v) ∈ envPairs st e →
        ∃ w, build_env st e env0 x = some w ∧ (x, w) ∈ envPairs st e)
    ∧ ((∀ v, (x, v) ∉ envPairs st e) → build_env st e env0 x = env0 x) := by
  have hmain : build_env st e env0 x
      = match (envPairs st e).reverse.find? (fun p => p.1 == x) with
        | some p => some p.2
        | none => env0 x := by
    unfold build_env envPairs
    exact scan_lookup st (walkList (expSize e) [e]) env0 x
  refine ⟨hmain, ?_, ?_⟩
  · intro v hv
    rcases hf : (envPairs st e).reverse.find? (fun p => p.1 == x) with _ | p
    · exfalso
      rw [List.find?_eq_none] at hf
      exact absurd (by simp : ((x, v) : String × Value).1 == x) (by
        simpa using hf (x, v) (by simpa using hv))
    · refine ⟨p.2, by rw [hmain, hf], ?_⟩
      have hmem : p ∈ (envPairs st e).reverse := List.mem_of_find?_eq_some hf
      have hpx := List.find?_some hf
      have hp1 : p.1 = x := by simpa using hpx
      rw [List.mem_reverse] at hmem
      have hpair : (x, p.2) = p := by
        rw [← hp1]
      rw [hpair]
      exact hmem
  · intro hnone
    rw [hmain]
    have hf : (envPairs st e).reverse.find? (fun p => p.1 == x) = none := by
      rw [List.find?_eq_none]
      intro p hp
      simp only [beq_iff_eq]
      intro hpx
      refine hnone p.2 ?_
      rw [List.mem_reverse] at hp
      simpa [← hpx] using hp
    rw [hf]

/-- Witness for C6 at a concrete input: a tree with two valued leaves
named `x` (values 1 then 2 in scan order); the later one wins, and it
wins over a supplied binding for `x` as well. -/
theorem build_env_last_write_wins_witness :
    ∃ w, build_env stD (.binop 5 .add (.name 0 "x") (.name 1 "x"))
        (updEnv emptyEnv "x" (.vint 9)) "x" = some w
      ∧ ("x", w) ∈ envPairs stD (.binop 5 .add (.name 0 "x") (.name 1 "x")) :=
  (build_env_last_write_wins stD (.binop 5 .add (.name 0 "x") (.name 1 "x"))
    (updEnv emptyEnv "x" (.vint 9)) "x").2.1 (.vint 1) (by
      show ("x", Value.vint 1) ∈ [("x", Value.vint 1), ("x", Value.vint 2)]
      simp)

/-- `accAll` on a singleton is the check of that child. -/
theorem accAll_singleton (fuel : Nat) (G : Env) (st : St) (c : Exp) :
    accAll fuel G st [c] = are_calls_concrete fuel G st c := by
  rcases hc : are_calls_concrete fuel G st c with er | b
  · simp [accAll, hc]
  · cases b <;> simp [accAll, hc]

/-- C1 (amended): the concreteness check classifies a function
abstraction as concrete outright; a Call node whose function-position
subtree evaluates to a *non-symbolic* value is concrete only if no
argument subtree evaluates to a symbolic `Node` — but when the function
position evaluates to a symbolic value (a `Node` or a pending lambda) the
argument check is skipped; in every remaining respect (and for every
other node kind) a node is concrete iff all of its child expression
subtrees are recursively concrete. -/
theorem concreteness_characterization (fuel : Nat) (G : Env) (st : St) :
    (∀ (s : Nat) (ps : List String) (b : Exp),
        are_calls_concrete fuel G st (.lam s ps b) = .ok true)
    ∧ (∀ (s : Nat) (f : Exp) (as : List Exp),
        are_calls_concrete fuel G st (.call s f as) = .ok true ↔
          ((∃ vf, astevalVal fuel G st f = .ok vf
              ∧ (is_concrete vf = true →
                  ∃ vs, as.mapM (fun a => astevalVal fuel G st a) = .ok vs
                    ∧ vs.all (fun v => !isNode v) = true))
            ∧ accAll fuel G st (children (.call s f as)) = .ok true))
    ∧ (∀ e : Exp, (∀ s ps b, e ≠ .lam s ps b) → (∀ s f as, e ≠ .call s f as) →
        (are_calls_concrete fuel G st e = .ok true ↔
          accAll fuel G st (children e) = .ok true))
    ∧ (∀ l : List Exp, accAll fuel G st l = .ok true ↔
        ∀ c ∈ l, are_calls_concrete fuel G st c = .ok true) := by
  have haccAll : ∀ l : List Exp, accAll fuel G st l = .ok true ↔
      ∀ c ∈ l, are_calls_concrete fuel G st c = .ok true := by
    intro l
    induction l with
    | nil => simp [accAll]
    | cons c cs ih =>
      rcases hc : are_calls_concrete fuel G st c with er | b
      · simp only [accAll, hc]
        constructor
        · intro h; cases h
        · intro h
          have := h c (by simp)
          rw [hc] at this
          cases this
      · cases b
        · simp only [accAll, hc]
          constructor
          · intro h; cases h
          · intro h
            have := h c (by simp)
            rw [hc] at this
            cases this
        · simp only [accAll, hc, ih]
          constructor
          · intro h d hd
            rcases (List.mem_cons.mp hd) with rfl | hd'
            · exact hc
            · exact h d hd'
          · intro h d hd
            exact h d (List.mem_cons_of_mem _ hd)
  refine ⟨fun s ps b => rfl, ?_, ?_, haccAll⟩
  · intro s f as
    have hchild : accAll fuel G st (children (.call s f as))
        = match are_calls_concrete fuel G st f with
          | .error er => .error er
          | .ok false => .ok false
          | .ok true => accAll fuel G st as := by
      simp only [children, accAll]
      rcases hacf : are_calls_concrete fuel G st f with er | b
      · rfl
      · cases b <;> rfl
    rcases hf : astevalVal fuel G st f with er | vf
    · simp only [are_calls_concrete, hf]
      constructor
      · intro h; cases h
      · rintro ⟨⟨vf, hvf, _⟩, _⟩
        cases hvf
    · by_cases hc : is_concrete vf = true
      · rcases hm : as.mapM (fun a => astevalVal fuel G st a) with er | vs
        · simp only [are_calls_concrete, hf, hc, if_true, hm]
          constructor
          · intro h; cases h
          · rintro ⟨⟨vf', hvf', himp⟩, _⟩
            cases hvf'
            obtain ⟨vs, hvs, _⟩ := himp hc
            cases hvs
        · by_cases hany : vs.any isNode = true
          · simp only [are_calls_concrete, hf, hc, if_true, hm, hany]
            constructor
            · intro h; cases h
            · rintro ⟨⟨vf', hvf', himp⟩, _⟩
              cases hvf'
              obtain ⟨vs', hvs', hall⟩ := himp hc
              cases hvs'
              rw [List.all_eq_true] at hall
              rw [List.any_eq_true] at hany
              obtain ⟨v, hv, hvnode⟩ := hany
              have := hall v hv
              rw [hvnode] at this
              cases this
          · have hany' : vs.any isNode = false := by
              cases h : vs.any isNode
              · rfl
              · exact absurd h hany
            simp only [are_calls_concrete, hf, hc, if_true, hm, hany', Bool.false_eq_true,
              if_false, hchild]
            constructor
            · intro h
              refine ⟨⟨vf, rfl, fun _ => ⟨vs, rfl, ?_⟩⟩, h⟩
              rw [List.all_eq_true]
              intro v hv
              rw [List.any_eq_false] at hany'
              simp [hany' v hv]
            · exact fun h => h.2
      · have hc' : is_concrete vf = false := by
          cases h : is_concrete vf
          · rfl
          · exact absurd h hc
        simp only [are_calls_concrete, hf, hc', Bool.false_eq_true, if_false, hchild]
        constructor
        · intro h
          exact ⟨⟨vf, rfl, fun hcon => absurd hcon hc⟩, h⟩
        · exact fun h => h.2
  · intro e hlam hcall
    cases e with
    | name sl id => simp [are_calls_concrete, children, accAll]
    | const sl n => simp [are_calls_concrete, children, accAll]
    | lam sl ps b => exact absurd rfl (hlam sl ps b)
    | call sl f as => exact absurd rfl (hcall sl f as)
    | binop sl op l r =>
      have : accAll fuel G st (children (.binop sl op l r))
          = match are_calls_concrete fuel G st l with
            | .error er => .error er
            | .ok false => .ok false
            | .ok true => are_calls_concrete fuel G st r := by
        simp only [children, accAll]
        rcases hl : are_calls_concrete fuel G st l with er | b
        · rfl
        · cases b
          · rfl
          · exact accAll_singleton fuel G st r
      rw [this]
      exact Iff.rfl

/-- Witness for C1 at a concrete input: for a leaf constant (neither a
lambda nor a call), concreteness is exactly the recursive concreteness of
its (empty) children. -/
theorem concreteness_characterization_witness :
    are_calls_concrete 5 G0 st0 (.const 0 5) = .ok true ↔
      accAll 5 G0 st0 (children (.const 0 5)) = .ok true :=
  (concreteness_characterization 5 G0 st0).2.2.1 (.const 0 5)
    (fun _ _ _ h => Exp.noConfusion h) (fun _ _ _ h => Exp.noConfusion h)

/-- C1 counterexample: a Call whose function-position subtree evaluates
to a symbolic `Node` — and whose argument subtree also evaluates to a
symbolic `Node` — is nonetheless classified concrete (the code skips the
argument check and falls through to the children check when the function
position is symbolic), refuting the claim's "only if". -/
theorem concreteness_counterexample :
    are_calls_concrete 20 G0 stA (.call 3 (.name 0 "f") [.name 2 "x"]) = .ok true
    ∧ astevalVal 20 G0 stA (.name 0 "f") = .ok (.vnode (.name 1 "g"))
    ∧ is_concrete (.vnode (.name 1 "g")) = false
    ∧ astevalVal 20 G0 stA (.name 2 "x") = .ok (.vnode (.name 4 "z"))
    ∧ isNode (.vnode (.name 4 "z")) = true :=
  ⟨rfl, rfl, rfl, rfl, rfl⟩

/-- C4 (amended): for a call `f(x)` whose argument `x` is an identifier
leaf attached to a Symbolic `Node`, evaluation never raises an
unbound-name error; moreover, whenever the function-position subtree
evaluates to a non-symbolic value, the concreteness check fails on the
argument and the entry point returns `None` without invoking the
underlying evaluator on the call, and whenever the function-position
lookup itself is unbound, the `NameError` is caught and `None` is
returned.  (When the function position is itself symbolic, the entry
point still raises no unbound-name error but may return a newly composed
`Node` instead of `None` — see the counterexample.) -/
theorem eval_symbolic_arg (fuel : Nat) (G : Env) (st : St) (sc sf sx : Nat)
    (f x : String) (m : Exp) (hx : st.store sx = some (.vnode m)) :
    (∀ s, evalExp fuel G st (.call sc (.name sf f) [.name sx x]) ≠ .error (.nameError s))
    ∧ (∀ vf, astevalVal fuel G st (.name sf f) = .ok vf → is_concrete vf = true →
        are_calls_concrete fuel G st (.call sc (.name sf f) [.name sx x]) = .ok false
        ∧ evalExp fuel G st (.call sc (.name sf f) [.name sx x]) = .ok none)
    ∧ (∀ s, astevalVal fuel G st (.name sf f) = .error (.nameError s) →
        evalExp fuel G st (.call sc (.name sf f) [.name sx x]) = .ok none) := by
  refine ⟨evalExp_no_name_error fuel G st _, ?_, ?_⟩
  · intro vf hvf hcon
    cases fuel with
    | zero => simp [astevalVal, asteval, pureEval, Except.map] at hvf
    | succ k =>
      have hargs : astevalVal (k + 1) G st (.name sx x) = .ok (.vnode m) := by
        simp [astevalVal, asteval, build_env, walkList, children, expSize, expSizeList,
          pureEval, updEnv, emptyEnv, hx, Except.map]
      have hacc : are_calls_concrete (k + 1) G st (.call sc (.name sf f) [.name sx x])
          = .ok false := by
        simp only [are_calls_concrete, hvf, hcon, if_true, List.mapM_cons, List.mapM_nil,
          hargs]
        simp [isNode]
      exact ⟨hacc, by simp [evalExp, hacc]⟩
  · intro s hvf
    have hacc : are_calls_concrete fuel G st (.call sc (.name sf f) [.name sx x])
        = .error (.nameError s) := by
      simp only [are_calls_concrete, hvf]
    simp [evalExp, hacc]

/-- Witness for C4 at a concrete input: `f(x)` with `f` attached to the
concrete value `1` and `x` attached to a `Node`: the concreteness check
fails and evaluation yields `None`. -/
theorem eval_symbolic_arg_witness :
    are_calls_concrete 20 G0 stC (.call 3 (.name 0 "f") [.name 2 "x"]) = .ok false
    ∧ evalExp 20 G0 stC (.call 3 (.name 0 "f") [.name 2 "x"]) = .ok none :=
  (eval_symbolic_arg 20 G0 stC 3 0 2 "f" "x" (.name 4 "z") rfl).2.1 (.vint 1) rfl rfl

/-- C4 counterexample: `h(y)` where *both* `h` and `y` are identifier
leaves attached to Symbolic `Node`s — the argument is an unresolved
placeholder exactly as the claim requires, yet the entry point does not
return `None`: it returns a newly composed symbolic call `w(u)` (the
symbolic function value is applied via `Node.__call__` inside the
evaluator), refuting the claim as stated. -/
theorem eval_symbolic_arg_counterexample :
    stB.store 7 = some (.vnode (.name 8 "u"))
    ∧ evalExp 20 G0 stB (.call 9 (.name 5 "h") [.name 7 "y"])
        = .ok (some (.vnode (.call 200 (.name 6 "w") [.name 8 "u"])))
    ∧ (Except.ok (some (Value.vnode (.call 200 (.name 6 "w") [.name 8 "u"])))
        ≠ (.ok none : Except Err (Option Value))) :=
  ⟨rfl, rfl, by simp⟩

/-- C8 (amended): when the concreteness check succeeds and the evaluator
returns a host closure, the entry point re-wraps it as a new Symbolic
`Node` — provided the re-wrap itself (which re-lifts the closure through
`make_lambda`, invoking it on placeholder arguments) succeeds; if the
re-lift raises an unbound-name error, the entry point returns `None`
instead of a re-wrapped closure. -/
theorem eval_closure_rewrap (fuel : Nat) (G : Env) (st st1 : St) (e : Exp)
    (ps : List String) (b : Exp)
    (hacc : are_calls_concrete fuel G st e = .ok true)
    (hev : asteval fuel G st e emptyEnv = .ok (.vclos ps b, st1)) :
    (∀ e2 st2, make_lambda fuel G st1 ps [] ∅ b = .ok (e2, st2) →
        evalExp fuel G st e = .ok (some (.vnode e2)))
    ∧ (∀ s, make_lambda fuel G st1 ps [] ∅ b = .error (.nameError s) →
        evalExp fuel G st e = .ok none) := by
  constructor
  · intro e2 st2 hml
    simp [evalExp, hacc, hev, hml]
  · intro s hml
    simp [evalExp, hacc, hev, hml]

/-- Witness for C8 at a concrete input: evaluating `lambda p: 5` yields a
closure, whose re-lift succeeds, and the entry point returns it
re-wrapped as a new Symbolic `Node`. -/
theorem eval_closure_rewrap_witness :
    evalExp 20 G0 st0 (.lam 0 ["p"] (.const 1 5))
      = .ok (some (.vnode (.lam 102 ["p"] (.const 101 5)))) :=
  (eval_closure_rewrap 20 G0 st0 _ (.lam 0 ["p"] (.const 1 5)) ["p"] (.const 1 5)
    rfl rfl).1 _ _ rfl

/-- C8 counterexample: for `lambda p: q` with `q` unbound, the
concreteness check succeeds and evaluation produces a host closure, yet
the entry point returns `None` rather than that closure re-wrapped as a
Symbolic `Node` (the re-lift raises `NameError('q')`, which is caught) —
refuting the claim as stated. -/
theorem eval_closure_rewrap_counterexample :
    are_calls_concrete 20 G0 st0 (.lam 0 ["p"] (.name 1 "q")) = .ok true
    ∧ astevalVal 20 G0 st0 (.lam 0 ["p"] (.name 1 "q")) = .ok (.vclos ["p"] (.name 1 "q"))
    ∧ evalExp 20 G0 st0 (.lam 0 ["p"] (.name 1 "q")) = .ok none :=
  ⟨rfl, rfl, rfl⟩

end Symbolize
